import Mathlib

/-!
Shallow embedding of the value-conversion layer of `go-duckdb` (`types.go`):
the `duckdb_hugeint` 128-bit integer conversions, the UUID byte/hugeint
transforms, `Decimal.String` formatting, `UUID.Scan` input dispatch, the
`Interval` value type, and `Composite.Scan` record decoding.

Machine integers are modelled as `Int`/`Nat` with explicit `2^64` bounds:
a C `int64_t` is an `Int` in `[-2^63, 2^63)`, a C `uint64_t` is a `Nat`
below `2^64`.  Go's `big.Int` is `Int`.  Byte slices are `List Nat` with
each entry below `256`.  Fallible Go functions returning `error` are
modelled with `Option`/`Except`.
-/

/-- Model of C's `duckdb_hugeint`: a 128-bit signed integer stored as a
signed 64-bit `upper` word and an unsigned 64-bit `lower` word.
The represented value is `upper * 2^64 + lower`. -/
structure duckdb_hugeint where
  upper : Int
  lower : Nat
deriving DecidableEq, Repr

/-- Well-formedness of a `duckdb_hugeint`: both words fit their machine
widths (`int64_t` and `uint64_t`). -/
def duckdb_hugeint.WF (hi : duckdb_hugeint) : Prop :=
  -(2 ^ 63) ≤ hi.upper ∧ hi.upper < 2 ^ 63 ∧ hi.lower < 2 ^ 64

instance (hi : duckdb_hugeint) : Decidable hi.WF := by
  unfold duckdb_hugeint.WF; infer_instance

/-- Go `hugeIntToNative`: `big.NewInt(int64(hi.upper))`, shifted left by 64
(`big.Int.Lsh` is multiplication by `2^64` on the mathematical value), plus
`lower` read as unsigned. -/
def hugeIntToNative (hi : duckdb_hugeint) : Int :=
  hi.upper * 2 ^ 64 + (hi.lower : Int)

/-- Go `hugeIntFromNative`: `q.DivMod(i, 2^64, r)` — `big.Int.DivMod` is
Euclidean division, so `q = i / 2^64` and `r = i % 2^64` with
`0 ≤ r < 2^64` (Lean's `Int` `/`/`%` are exactly Euclidean); the call fails
(`none`) when `q.IsInt64()` is false, i.e. when `q` is outside
`[-2^63, 2^63 - 1]`; otherwise the result is `(upper := q, lower := r)`. -/
def hugeIntFromNative (i : Int) : Option duckdb_hugeint :=
  let q : Int := i / 2 ^ 64
  let r : Int := i % 2 ^ 64
  if -(2 ^ 63) ≤ q ∧ q ≤ 2 ^ 63 - 1 then
    some { upper := q, lower := r.toNat }
  else
    none

/-- C1: round trip — for every well-formed `duckdb_hugeint` value,
`hugeIntFromNative (hugeIntToNative hi)` succeeds and returns `hi`
unchanged (both words preserved). -/
theorem hugeIntFromNative_hugeIntToNative (hi : duckdb_hugeint) (h : hi.WF) :
    hugeIntFromNative (hugeIntToNative hi) = some hi := by
  obtain ⟨h1, h2, h3⟩ := h
  have hlow0 : (0 : Int) ≤ (hi.lower : Int) := Int.ofNat_nonneg _
  have hlow : (hi.lower : Int) < 2 ^ 64 := by exact_mod_cast h3
  have hq : (hi.upper * 2 ^ 64 + (hi.lower : Int)) / 2 ^ 64 = hi.upper := by
    rw [add_comm, Int.add_mul_ediv_right _ _ (by norm_num : (2 : Int) ^ 64 ≠ 0),
      Int.ediv_eq_zero_of_lt hlow0 hlow, zero_add]
  have hr : (hi.upper * 2 ^ 64 + (hi.lower : Int)) % 2 ^ 64 = (hi.lower : Int) := by
    rw [add_comm, Int.add_mul_emod_self, Int.emod_eq_of_lt hlow0 hlow]
  have ht : ((hi.lower : Int)).toNat = hi.lower := by omega
  unfold hugeIntFromNative hugeIntToNative
  simp only [hq, hr]
  rw [if_pos ⟨h1, by omega⟩, ht]

/-- C1 witness: the round trip evaluated at the concrete well-formed value
`(upper = -1, lower = 5)`. -/
theorem hugeIntFromNative_hugeIntToNative_witness :
    hugeIntFromNative (hugeIntToNative ⟨-1, 5⟩) = some ⟨-1, 5⟩ :=
  hugeIntFromNative_hugeIntToNative ⟨-1, 5⟩ (by decide)

/-- C5: `hugeIntToNative` computes `upper * 2^64 + lower` (upper signed,
lower an unsigned contribution), and in particular the two's-complement
boundary value `(upper = -1, lower = 2^64 - 1)` maps to `-1`. -/
theorem hugeIntToNative_eq (hi : duckdb_hugeint) :
    hugeIntToNative hi = hi.upper * 2 ^ 64 + (hi.lower : Int) ∧
      hugeIntToNative ⟨-1, 2 ^ 64 - 1⟩ = -1 :=
  ⟨rfl, by unfold hugeIntToNative; norm_num⟩

/-- C3: `hugeIntFromNative` errors exactly when `i` is outside the signed
128-bit range `[-2^127, 2^127 - 1]`; on success the lower word is in
`[0, 2^64)`, the upper word is the floor quotient `i / 2^64`, and the two
words exactly reassemble `i`. -/
theorem hugeIntFromNative_spec (i : Int) :
    match hugeIntFromNative i with
    | none => i < -(2 ^ 127) ∨ 2 ^ 127 - 1 < i
    | some hi =>
        -(2 ^ 127) ≤ i ∧ i ≤ 2 ^ 127 - 1 ∧
          hi.lower < 2 ^ 64 ∧ (hi.upper : Int) = i / 2 ^ 64 ∧
          hi.upper * 2 ^ 64 + (hi.lower : Int) = i := by
  have hpos : (0 : Int) < 2 ^ 64 := by norm_num
  have hmod0 : (0 : Int) ≤ i % 2 ^ 64 := Int.emod_nonneg i (by norm_num)
  have hmod : i % 2 ^ 64 < 2 ^ 64 := Int.emod_lt_of_pos i hpos
  have hdm : 2 ^ 64 * (i / 2 ^ 64) + i % 2 ^ 64 = i := Int.ediv_add_emod i (2 ^ 64)
  unfold hugeIntFromNative
  by_cases hc : -(2 ^ 63) ≤ i / 2 ^ 64 ∧ i / 2 ^ 64 ≤ 2 ^ 63 - 1
  · rw [if_pos hc]
    obtain ⟨hcl, hcr⟩ := hc
    refine ⟨by omega, by omega, show (i % 2 ^ 64).toNat < 2 ^ 64 by omega, rfl,
      show i / 2 ^ 64 * 2 ^ 64 + ((i % 2 ^ 64).toNat : Int) = i by omega⟩
  · rw [if_neg hc]
    push_neg at hc
    rcases lt_or_le (i / 2 ^ 64) (-(2 ^ 63)) with hlt | hge
    · left; omega
    · right; have := hc hge; omega

/-- C10: every integer in the signed 128-bit range `[-2^127, 2^127 - 1]`
is sent by `hugeIntFromNative` to a `duckdb_hugeint` that `hugeIntToNative`
maps back to the same integer: the two conversions are mutually inverse on
that range (with C1 giving the other direction). -/
theorem hugeIntToNative_hugeIntFromNative (i : Int)
    (hlo : -(2 ^ 127) ≤ i) (hhi : i ≤ 2 ^ 127 - 1) :
    Option.map hugeIntToNative (hugeIntFromNative i) = some i := by
  have hpos : (0 : Int) < 2 ^ 64 := by norm_num
  have hmod0 : (0 : Int) ≤ i % 2 ^ 64 := Int.emod_nonneg i (by norm_num)
  have hmod : i % 2 ^ 64 < 2 ^ 64 := Int.emod_lt_of_pos i hpos
  have hdm : 2 ^ 64 * (i / 2 ^ 64) + i % 2 ^ 64 = i := Int.ediv_add_emod i (2 ^ 64)
  have hql : -(2 ^ 63) ≤ i / 2 ^ 64 := by omega
  have hqr : i / 2 ^ 64 ≤ 2 ^ 63 - 1 := by omega
  unfold hugeIntFromNative
  rw [if_pos ⟨hql, hqr⟩]
  simp only [Option.map_some']
  unfold hugeIntToNative
  have ht : ((i % 2 ^ 64).toNat : Int) = i % 2 ^ 64 := Int.toNat_of_nonneg hmod0
  congr 1
  show i / 2 ^ 64 * 2 ^ 64 + ((i % 2 ^ 64).toNat : Int) = i
  omega

set_option maxRecDepth 20000 in
/-- C10 witness: the inverse round trip evaluated at `i = -42`, which lies
in the 128-bit range. -/
theorem hugeIntToNative_hugeIntFromNative_witness :
    Option.map hugeIntToNative (hugeIntFromNative (-42)) = some (-42) :=
  hugeIntToNative_hugeIntFromNative (-42) (by decide) (by decide)

/-! ## UUID byte transforms (`hugeIntToUUID`, `uuidToHugeInt`)

A Go byte slice is a `List Nat` whose entries are below `256`.
`binary.BigEndian.Uint64` / `PutUint64` become `beBytesToNat` /
`natToBeBytes`; the Go conversions between `uint64` and `int64` become
the explicit two's-complement reinterpretations below. -/

/-- `binary.BigEndian.Uint64`-style read: the value of a byte list,
most significant byte first. -/
def beBytesToNat : List Nat → Nat
  | [] => 0
  | b :: bs => b * 256 ^ bs.length + beBytesToNat bs

/-- `binary.BigEndian.PutUint64`-style write of `n` into `k` bytes, most
significant byte first: byte `i` is `(n >> 8*(k-1-i)) & 0xff`. -/
def natToBeBytes : Nat → Nat → List Nat
  | 0, _ => []
  | k + 1, n => n / 256 ^ k % 256 :: natToBeBytes k (n % 256 ^ k)

/-- Go's `int64(x)` applied to a `uint64`: two's-complement
reinterpretation. -/
def uint64ToInt64 (n : Nat) : Int :=
  if n < 2 ^ 63 then (n : Int) else (n : Int) - 2 ^ 64

/-- Go's `uint64(x)` applied to an `int64`: two's-complement
reinterpretation, i.e. reduction modulo `2^64`. -/
def int64ToUint64 (i : Int) : Nat := (i % 2 ^ 64).toNat

/-- A valid UUID byte payload: exactly 16 bytes. -/
def isUUIDBytes (u : List Nat) : Prop := u.length = 16 ∧ ∀ b ∈ u, b < 256

instance (u : List Nat) : Decidable (isUUIDBytes u) := by
  unfold isUUIDBytes; infer_instance

/-- Go `uuidToHugeInt`: bytes 0–7 big-endian with the sign bit flipped
(`^ (1 << 63)`) reinterpreted as the signed `upper` word; bytes 8–15
big-endian as `lower`. -/
def uuidToHugeInt (u : List Nat) : duckdb_hugeint :=
  let upper := beBytesToNat (u.take 8) ^^^ (1 <<< 63)
  { upper := uint64ToInt64 upper, lower := beBytesToNat (u.drop 8) }

/-- Go `hugeIntToUUID`: write `uint64(hi.upper) ^ (1 << 63)` big-endian
into bytes 0–7 and `hi.lower` big-endian into bytes 8–15. -/
def hugeIntToUUID (hi : duckdb_hugeint) : List Nat :=
  natToBeBytes 8 (int64ToUint64 hi.upper ^^^ (1 <<< 63)) ++ natToBeBytes 8 hi.lower

theorem one_shiftLeft_63 : (1 <<< 63 : Nat) = 2 ^ 63 := by
  rw [Nat.shiftLeft_eq, one_mul]

theorem natToBeBytes_length : ∀ (k n : Nat), (natToBeBytes k n).length = k
  | 0, _ => rfl
  | k + 1, n => by simp [natToBeBytes, natToBeBytes_length k]

theorem natToBeBytes_mem_lt : ∀ (k n : Nat), ∀ b ∈ natToBeBytes k n, b < 256
  | 0, _, b, hb => by simp [natToBeBytes] at hb
  | k + 1, n, b, hb => by
    simp only [natToBeBytes, List.mem_cons] at hb
    rcases hb with rfl | hb
    · exact Nat.mod_lt _ (by norm_num)
    · exact natToBeBytes_mem_lt k _ b hb

theorem beBytesToNat_natToBeBytes : ∀ (k n : Nat), n < 256 ^ k →
    beBytesToNat (natToBeBytes k n) = n
  | 0, n, h => by
    simp only [pow_zero, Nat.lt_one_iff] at h
    simp [natToBeBytes, beBytesToNat, h]
  | k + 1, n, h => by
    have hpow : 0 < 256 ^ k := pow_pos (by norm_num) k
    have hmlt : n % 256 ^ k < 256 ^ k := Nat.mod_lt _ hpow
    have hdiv : n / 256 ^ k < 256 := by
      rw [Nat.div_lt_iff_lt_mul hpow]
      calc n < 256 ^ (k + 1) := h
        _ = 256 * 256 ^ k := by rw [pow_succ]; ring
    simp only [natToBeBytes, beBytesToNat, natToBeBytes_length,
      beBytesToNat_natToBeBytes k _ hmlt, Nat.mod_eq_of_lt hdiv]
    rw [Nat.mul_comm]
    exact Nat.div_add_mod n (256 ^ k)

theorem beBytesToNat_lt : ∀ (u : List Nat), (∀ b ∈ u, b < 256) →
    beBytesToNat u < 256 ^ u.length
  | [], _ => by simp [beBytesToNat]
  | b :: bs, h => by
    have hb : b < 256 := h b (by simp)
    have ih := beBytesToNat_lt bs (fun x hx => h x (by simp [hx]))
    simp only [beBytesToNat, List.length_cons]
    calc b * 256 ^ bs.length + beBytesToNat bs
        < (b + 1) * 256 ^ bs.length := by rw [add_one_mul]; omega
      _ ≤ 256 * 256 ^ bs.length := Nat.mul_le_mul_right _ (by omega)
      _ = 256 ^ (bs.length + 1) := by rw [pow_succ]; ring

theorem natToBeBytes_beBytesToNat : ∀ (u : List Nat), (∀ b ∈ u, b < 256) →
    natToBeBytes u.length (beBytesToNat u) = u
  | [], _ => rfl
  | b :: bs, h => by
    have hb : b < 256 := h b (by simp)
    have hv : beBytesToNat bs < 256 ^ bs.length :=
      beBytesToNat_lt bs (fun x hx => h x (by simp [hx]))
    have hpow : 0 < 256 ^ bs.length := pow_pos (by norm_num) bs.length
    have hhead : (b * 256 ^ bs.length + beBytesToNat bs) / 256 ^ bs.length % 256 = b := by
      rw [Nat.mul_comm b, Nat.mul_add_div hpow, Nat.div_eq_of_lt hv, Nat.add_zero,
        Nat.mod_eq_of_lt hb]
    have htail : (b * 256 ^ bs.length + beBytesToNat bs) % 256 ^ bs.length
        = beBytesToNat bs := by
      rw [Nat.add_comm, Nat.add_mul_mod_self_right, Nat.mod_eq_of_lt hv]
    simp only [beBytesToNat, List.length_cons, natToBeBytes, hhead, htail,
      natToBeBytes_beBytesToNat bs (fun x hx => h x (by simp [hx]))]

theorem natToBeBytes_beBytesToNat_of_length (k : Nat) (u : List Nat)
    (hk : u.length = k) (h : ∀ b ∈ u, b < 256) :
    natToBeBytes k (beBytesToNat u) = u := by
  subst hk; exact natToBeBytes_beBytesToNat u h

/-- XOR with a power of two sets the bit when it is clear: for `r < 2^k`,
`r ^^^ 2^k = 2^k + r`. -/
theorem xor_two_pow_of_lt {r k : Nat} (h : r < 2 ^ k) : r ^^^ 2 ^ k = 2 ^ k + r := by
  apply Nat.eq_of_testBit_eq
  intro i
  rcases Nat.lt_trichotomy i k with hik | rfl | hik
  · rw [Nat.testBit_xor, Nat.testBit_two_pow_of_ne (by omega),
      Nat.testBit_two_pow_add_gt hik]
    simp
  · rw [Nat.testBit_xor, Nat.testBit_two_pow_self, Nat.testBit_two_pow_add_eq,
      Nat.testBit_lt_two_pow h]
    simp
  · have hr : r.testBit i = false :=
      Nat.testBit_lt_two_pow (lt_of_lt_of_le h (Nat.pow_le_pow_right (by norm_num) (by omega)))
    have hsum : 2 ^ k + r < 2 ^ i := by
      have h1 : 2 ^ k + r < 2 ^ (k + 1) := by
        have := Nat.pow_succ 2 k
        omega
      exact lt_of_lt_of_le h1 (Nat.pow_le_pow_right (by norm_num) (by omega))
    rw [Nat.testBit_xor, Nat.testBit_two_pow_of_ne (by omega), hr,
      Nat.testBit_lt_two_pow hsum]
    rfl

/-- Flipping the top bit of a `k+1`-bit value adds or subtracts `2^k`
according to whether the bit was clear or set. -/
theorem xor_two_pow_flip {n k : Nat} (h : n < 2 ^ (k + 1)) :
    n ^^^ 2 ^ k = if n < 2 ^ k then n + 2 ^ k else n - 2 ^ k := by
  by_cases hn : n < 2 ^ k
  · rw [if_pos hn, xor_two_pow_of_lt hn, Nat.add_comm]
  · rw [if_neg hn]
    have hsucc := Nat.pow_succ 2 k
    have h1 : n - 2 ^ k < 2 ^ k := by omega
    have hx : (n - 2 ^ k) ^^^ 2 ^ k = n := by rw [xor_two_pow_of_lt h1]; omega
    calc n ^^^ 2 ^ k = ((n - 2 ^ k) ^^^ 2 ^ k) ^^^ 2 ^ k := by rw [hx]
      _ = n - 2 ^ k := Nat.xor_cancel_right _ _

/-- The Go idiom `int64(x ^ (1 << 63))` on a `uint64` subtracts the
`2^63` bias: it maps `x < 2^64` to `(x : Int) - 2^63`. -/
theorem uint64ToInt64_xor_flip {n : Nat} (h : n < 2 ^ 64) :
    uint64ToInt64 (n ^^^ 2 ^ 63) = (n : Int) - 2 ^ 63 := by
  have hx := xor_two_pow_flip (k := 63) (by exact h)
  unfold uint64ToInt64
  by_cases hn : n < 2 ^ 63
  · rw [hx, if_pos hn, if_neg (by omega)]
    push_cast
    ring
  · have hbig : n - 2 ^ 63 < 2 ^ 63 := by omega
    rw [hx, if_neg hn, if_pos hbig]
    omega

/-- `uint64 → int64 → uint64` is the identity on 64-bit values. -/
theorem int64ToUint64_uint64ToInt64 {n : Nat} (h : n < 2 ^ 64) :
    int64ToUint64 (uint64ToInt64 n) = n := by
  unfold int64ToUint64 uint64ToInt64
  split <;> omega

theorem beBytesToNat_append (s t : List Nat) :
    beBytesToNat (s ++ t) = beBytesToNat s * 256 ^ t.length + beBytesToNat t := by
  induction s with
  | nil => simp [beBytesToNat]
  | cons b s ih =>
    simp only [List.cons_append, beBytesToNat, List.append_eq, List.length_append, pow_add]
    rw [ih]
    ring

/-- C2: round trip — converting any 16-byte UUID to the engine's 128-bit
integer form with `uuidToHugeInt` and back with `hugeIntToUUID` yields
exactly the original 16 bytes. -/
theorem hugeIntToUUID_uuidToHugeInt (u : List Nat) (h : isUUIDBytes u) :
    hugeIntToUUID (uuidToHugeInt u) = u := by
  obtain ⟨hlen, hb⟩ := h
  have htake_len : (u.take 8).length = 8 := by
    rw [List.length_take]; omega
  have hdrop_len : (u.drop 8).length = 8 := by
    rw [List.length_drop]; omega
  have htake_mem : ∀ b ∈ u.take 8, b < 256 :=
    fun b hb' => hb b ((List.take_sublist 8 u).subset hb')
  have hdrop_mem : ∀ b ∈ u.drop 8, b < 256 :=
    fun b hb' => hb b ((List.drop_sublist 8 u).subset hb')
  have hA : beBytesToNat (u.take 8) < 2 ^ 64 := by
    have h1 := beBytesToNat_lt (u.take 8) htake_mem
    rw [htake_len] at h1
    calc beBytesToNat (u.take 8) < 256 ^ 8 := h1
      _ = 2 ^ 64 := by norm_num
  unfold hugeIntToUUID uuidToHugeInt
  dsimp only
  rw [one_shiftLeft_63,
    int64ToUint64_uint64ToInt64 (Nat.xor_lt_two_pow hA (by norm_num)),
    Nat.xor_cancel_right,
    natToBeBytes_beBytesToNat_of_length 8 (u.take 8) htake_len htake_mem,
    natToBeBytes_beBytesToNat_of_length 8 (u.drop 8) hdrop_len hdrop_mem,
    List.take_append_drop]

set_option maxRecDepth 20000 in
/-- C2 witness: the UUID round trip evaluated at the concrete byte
sequence `[0, 1, 2, ..., 15]`. -/
theorem hugeIntToUUID_uuidToHugeInt_witness :
    hugeIntToUUID (uuidToHugeInt [0, 1, 2, 3, 4, 5, 6, 7, 8, 9, 10, 11, 12, 13, 14, 15])
      = [0, 1, 2, 3, 4, 5, 6, 7, 8, 9, 10, 11, 12, 13, 14, 15] :=
  hugeIntToUUID_uuidToHugeInt _ (by decide)

/-- Lexicographic strict order on byte sequences (the order of Go's
`bytes.Compare` returning `-1`). -/
def lexLt : List Nat → List Nat → Bool
  | [], [] => false
  | [], _ :: _ => true
  | _ :: _, [] => false
  | a :: as, b :: bs => decide (a < b) || (a == b && lexLt as bs)

/-- On equal-length byte sequences, lexicographic order coincides with the
numeric order of the big-endian values. -/
theorem lexLt_iff_beBytesToNat_lt : ∀ (s t : List Nat), s.length = t.length →
    (∀ b ∈ s, b < 256) → (∀ b ∈ t, b < 256) →
    (lexLt s t = true ↔ beBytesToNat s < beBytesToNat t)
  | [], [], _, _, _ => by simp [lexLt, beBytesToNat]
  | [], _ :: _, hlen, _, _ => by simp at hlen
  | _ :: _, [], hlen, _, _ => by simp at hlen
  | a :: as, b :: bs, hlen, hs, ht => by
    have hL : as.length = bs.length := by simpa using hlen
    have hva := beBytesToNat_lt as (fun x hx => hs x (by simp [hx]))
    have hvb := beBytesToNat_lt bs (fun x hx => ht x (by simp [hx]))
    rw [hL] at hva
    have ih := lexLt_iff_beBytesToNat_lt as bs hL
      (fun x hx => hs x (by simp [hx])) (fun x hx => ht x (by simp [hx]))
    simp only [lexLt, beBytesToNat, hL, Bool.or_eq_true, Bool.and_eq_true,
      decide_eq_true_eq, beq_iff_eq]
    constructor
    · rintro (hab | ⟨rfl, hlt⟩)
      · calc a * 256 ^ bs.length + beBytesToNat as
            < (a + 1) * 256 ^ bs.length := by rw [add_one_mul]; omega
          _ ≤ b * 256 ^ bs.length := Nat.mul_le_mul_right _ (by omega)
          _ ≤ b * 256 ^ bs.length + beBytesToNat bs := Nat.le_add_right _ _
      · have := ih.mp hlt
        omega
    · intro hsum
      rcases Nat.lt_trichotomy a b with hab | rfl | hab
      · exact Or.inl hab
      · exact Or.inr ⟨rfl, ih.mpr (by omega)⟩
      · exfalso
        have hlt2 : b * 256 ^ bs.length + beBytesToNat bs
            < a * 256 ^ bs.length + beBytesToNat as := by
          calc b * 256 ^ bs.length + beBytesToNat bs
              < (b + 1) * 256 ^ bs.length := by rw [add_one_mul]; omega
            _ ≤ a * 256 ^ bs.length := Nat.mul_le_mul_right _ (by omega)
            _ ≤ a * 256 ^ bs.length + beBytesToNat as := Nat.le_add_right _ _
        omega

/-- The signed 128-bit value produced by the sign-bit flip is the
big-endian value of the UUID bytes shifted down by the `2^127` bias. -/
theorem hugeIntToNative_uuidToHugeInt (u : List Nat) (h : isUUIDBytes u) :
    hugeIntToNative (uuidToHugeInt u) = (beBytesToNat u : Int) - 2 ^ 127 := by
  obtain ⟨hlen, hb⟩ := h
  have htake_len : (u.take 8).length = 8 := by
    rw [List.length_take]; omega
  have hdrop_len : (u.drop 8).length = 8 := by
    rw [List.length_drop]; omega
  have htake_mem : ∀ b ∈ u.take 8, b < 256 :=
    fun b hb' => hb b ((List.take_sublist 8 u).subset hb')
  have hA : beBytesToNat (u.take 8) < 2 ^ 64 := by
    have h1 := beBytesToNat_lt (u.take 8) htake_mem
    rw [htake_len] at h1
    calc beBytesToNat (u.take 8) < 256 ^ 8 := h1
      _ = 2 ^ 64 := by norm_num
  have happ := beBytesToNat_append (u.take 8) (u.drop 8)
  rw [List.take_append_drop, hdrop_len] at happ
  unfold hugeIntToNative uuidToHugeInt
  dsimp only
  rw [one_shiftLeft_63, uint64ToInt64_xor_flip hA, happ]
  push_cast
  ring

/-- C6: the sign-bit flip in `uuidToHugeInt` is order-preserving — two
16-byte UUIDs compare lexicographically exactly as the signed 128-bit
values (`hugeIntToNative`) of their `uuidToHugeInt` images compare
numerically. -/
theorem uuidToHugeInt_order (u1 u2 : List Nat)
    (h1 : isUUIDBytes u1) (h2 : isUUIDBytes u2) :
    (lexLt u1 u2 = true ↔
      hugeIntToNative (uuidToHugeInt u1) < hugeIntToNative (uuidToHugeInt u2)) := by
  rw [hugeIntToNative_uuidToHugeInt u1 h1, hugeIntToNative_uuidToHugeInt u2 h2,
    lexLt_iff_beBytesToNat_lt u1 u2 (by rw [h1.1, h2.1]) h1.2 h2.2]
  omega

set_option maxRecDepth 20000 in
/-- C6 witness: the order equivalence evaluated at the all-zero UUID and
the UUID whose last byte is 1, together with the concrete comparison. -/
theorem uuidToHugeInt_order_witness :
    lexLt [0, 0, 0, 0, 0, 0, 0, 0, 0, 0, 0, 0, 0, 0, 0, 0]
        [0, 0, 0, 0, 0, 0, 0, 0, 0, 0, 0, 0, 0, 0, 0, 1] = true ∧
      hugeIntToNative (uuidToHugeInt [0, 0, 0, 0, 0, 0, 0, 0, 0, 0, 0, 0, 0, 0, 0, 0]) <
        hugeIntToNative (uuidToHugeInt [0, 0, 0, 0, 0, 0, 0, 0, 0, 0, 0, 0, 0, 0, 0, 1]) :=
  ⟨by decide,
    (uuidToHugeInt_order _ _ (by decide) (by decide)).mp (by decide)⟩

/-! ## `Decimal` and its `String` method -/

/-- Model of `Decimal`: total digit width, fractional scale, and the
arbitrary-precision magnitude `Value` (the number is `Value / 10^Scale`). -/
structure Decimal where
  Width : Nat
  Scale : Nat
  Value : Int
deriving DecidableEq, Repr

/-- Go `strings.TrimRightFunc(s, r == '0')`: drop trailing `'0'`
characters. -/
def trimRightZeros (s : List Char) : List Char :=
  (s.reverse.dropWhile (fun c => c == '0')).reverse

/-- Go `Decimal.String`: canonical shortest-form decimal text by pure
string manipulation.  `Value.String()` with the sign stripped is the digit
string of `Value.natAbs`; trailing zeros are trimmed and the scale reduced
by the number trimmed; the three branches then reconstruct an integer, a
sub-one decimal, or an inner decimal point. -/
def Decimal.String (d : Decimal) : String :=
  if d.Value = 0 then "0"
  else
    let signStr := if d.Value < 0 then "-" else ""
    let scaleless := Nat.toDigits 10 d.Value.natAbs
    let zeroTrimmed := trimRightZeros scaleless
    let scale : Int := (d.Scale : Int) - ((scaleless.length : Int) - (zeroTrimmed.length : Int))
    if scale ≤ 0 then
      signStr ++ String.mk zeroTrimmed ++ String.mk (List.replicate (-scale).toNat '0')
    else if (zeroTrimmed.length : Int) ≤ scale then
      signStr ++ "0." ++ String.mk (List.replicate (scale.toNat - zeroTrimmed.length) '0')
        ++ String.mk zeroTrimmed
    else
      signStr ++ String.mk (zeroTrimmed.take (zeroTrimmed.length - scale.toNat)) ++ "."
        ++ String.mk (zeroTrimmed.drop (zeroTrimmed.length - scale.toNat))

/-- C4: `Decimal.String` canonical formatting — a zero magnitude yields
`"0"` for every width and scale, and the shortest-form literal cases
(at the engine's ceiling width 38, which the formatter never reads):
`(123, scale 2) = "1.23"`, `(12345, scale 0) = "12345"`,
`(100, scale 3) = "0.1"` (trailing zero trimmed, scale reduced), and
`(-5, scale 2) = "-0.05"`. -/
theorem Decimal.String_spec :
    (∀ w s, Decimal.String ⟨w, s, 0⟩ = "0") ∧
      Decimal.String ⟨38, 2, 123⟩ = "1.23" ∧
      Decimal.String ⟨38, 0, 12345⟩ = "12345" ∧
      Decimal.String ⟨38, 3, 100⟩ = "0.1" ∧
      Decimal.String ⟨38, 2, -5⟩ = "-0.05" :=
  ⟨fun _ _ => rfl, rfl, rfl, rfl, rfl⟩

/-! ## `Interval` -/

/-- Model of the source's `Interval` (named `DuckdbInterval` here because
Mathlib already claims `Interval`): the three independent fields
(`int32`, `int32`, `int64`), in source order. -/
structure DuckdbInterval where
  Days : Int
  Months : Int
  Micros : Int
deriving DecidableEq, Repr

/-- C9: `Interval` equality is exact field-wise comparison of
`(Months, Days, Micros)` with no calendar normalization; in particular one
day as `{days := 1}` differs from one day as `{micros := 86400000000}`. -/
theorem DuckdbInterval.eq_iff :
    (∀ a b : DuckdbInterval,
        a = b ↔ a.Days = b.Days ∧ a.Months = b.Months ∧ a.Micros = b.Micros) ∧
      DuckdbInterval.mk 1 0 0 ≠ DuckdbInterval.mk 0 0 86400000000 := by
  constructor
  · rintro ⟨ad, am, ai⟩ ⟨bd, bm, bi⟩
    constructor
    · intro h
      rw [h]
      exact ⟨rfl, rfl, rfl⟩
    · rintro ⟨h1, h2, h3⟩
      simp_all
  · decide

/-! ## `UUID.Scan` -/

/-- A Go `any` value handed to `UUID.Scan`: a `[]byte`, a `string` (a Go
string is itself a byte sequence, and `string(val)` preserves the bytes),
or a value of any other dynamic type. -/
inductive ScanValue where
  | bytes (val : List Nat)
  | str (val : List Nat)
  | other
deriving DecidableEq, Repr

/-- The `string` case of `UUID.Scan`, parameterized by the external
`uuid.Parse` (`github.com/google/uuid`, outside this repository): on
success the 16 parsed bytes are copied into the destination, otherwise the
parse error is returned. -/
def scanUUIDString (parse : List Nat → Option (List Nat)) (s : List Nat) :
    Except Unit (List Nat) :=
  match parse s with
  | some id => .ok id
  | none => .error ()

/-- Go `UUID.Scan`: a 16-byte slice is copied directly; a slice of any
other length is reinterpreted as a string (`u.Scan(string(val))`, which
lands in the string case); a string is parsed; anything else is an
`invalid UUID value type` error. -/
def UUID.Scan (parse : List Nat → Option (List Nat)) : ScanValue → Except Unit (List Nat)
  | .bytes val => if val.length ≠ 16 then scanUUIDString parse val else .ok val
  | .str s => scanUUIDString parse s
  | .other => .error ()

/-- C7: `UUID.Scan` accepts exactly two input shapes — a 16-byte sequence
is copied directly; any other byte length is handled exactly as the same
bytes given as a string; a string parses to its 16 bytes on success and
errors when the parse fails; a non-byte non-string input always errors. -/
theorem UUID.Scan_spec (parse : List Nat → Option (List Nat)) :
    (∀ bs, bs.length = 16 → UUID.Scan parse (.bytes bs) = .ok bs) ∧
      (∀ bs, bs.length ≠ 16 →
        UUID.Scan parse (.bytes bs) = UUID.Scan parse (.str bs)) ∧
      (∀ s id, parse s = some id → UUID.Scan parse (.str s) = .ok id) ∧
      (∀ s, parse s = none → UUID.Scan parse (.str s) = .error ()) ∧
      UUID.Scan parse .other = .error () := by
  refine ⟨fun bs h => ?_, fun bs h => ?_, fun s id h => ?_, fun s h => ?_, rfl⟩
  · simp [UUID.Scan, h]
  · simp [UUID.Scan, h]
  · simp [UUID.Scan, scanUUIDString, h]
  · simp [UUID.Scan, scanUUIDString, h]

/-- C7 witness: the four fallible shapes evaluated at concrete inputs —
16 zero bytes copied directly, a 3-byte slice rerouted to the string case,
a string parsed by an always-succeeding parser, and a string rejected by
an always-failing parser. -/
theorem UUID.Scan_spec_witness :
    (UUID.Scan (fun _ => none) (.bytes (List.replicate 16 0))
        = .ok (List.replicate 16 0)) ∧
      (UUID.Scan (fun _ => none) (.bytes [1, 2, 3])
        = UUID.Scan (fun _ => none) (.str [1, 2, 3])) ∧
      (UUID.Scan (fun _ => some (List.replicate 16 7)) (.str [97])
        = .ok (List.replicate 16 7)) ∧
      (UUID.Scan (fun _ => none) (.str [97]) = .error ()) :=
  ⟨(UUID.Scan_spec _).1 _ (by decide),
    (UUID.Scan_spec _).2.1 _ (by decide),
    (UUID.Scan_spec _).2.2.1 [97] _ rfl,
    (UUID.Scan_spec _).2.2.2.1 [97] rfl⟩

/-! ## `Composite.Scan` record decoding -/

/-- ASCII lower-casing of one character, for case-insensitive field-name
matching. -/
def lowerChar (c : Char) : Char :=
  if 'A' ≤ c ∧ c ≤ 'Z' then Char.ofNat (c.toNat + 32) else c

/-- Case-insensitive comparison of two field names. -/
def fieldMatches (srcName destName : List Char) : Bool :=
  srcName.map lowerChar == destName.map lowerChar

/-- Modelled from the spec: `Composite.Scan` delegates to
`mapstructure.Decode` (`github.com/mitchellh/mapstructure`, outside this
repository); its record-to-record path matches each destination field
(given by its declared name or tag) against the source fields by
case-insensitive name comparison, fills matched fields with the source
value, leaves unmatched destination fields at the zero value, and ignores
unmatched source fields.  A source record is a list of named `Int` fields;
a destination record is the list of its declared field names. -/
def decodeRecord (src : List (List Char × Int)) (dests : List (List Char)) :
    List (List Char × Int) :=
  dests.map fun dn =>
    match src.find? (fun p => fieldMatches p.1 dn) with
    | some p => (dn, p.2)
    | none => (dn, 0)

/-- C8: record decoding — the output has exactly the destination fields in
order (so extra source fields are ignored and never cause an error), a
destination field with no case-insensitive source match is left at the
zero value, and every decoded value either comes from a source field whose
name matches case-insensitively or is the zero value of an unmatched
field. -/
theorem decodeRecord_spec (src : List (List Char × Int)) (dests : List (List Char)) :
    ((decodeRecord src dests).map Prod.fst = dests) ∧
      (∀ dn, dn ∈ dests → (∀ p ∈ src, fieldMatches p.1 dn = false) →
        (dn, (0 : Int)) ∈ decodeRecord src dests) ∧
      (∀ dn v, (dn, v) ∈ decodeRecord src dests →
        dn ∈ dests ∧
          ((∃ sn, (sn, v) ∈ src ∧ fieldMatches sn dn = true) ∨
            (v = 0 ∧ ∀ p ∈ src, fieldMatches p.1 dn = false))) := by
  refine ⟨?_, ?_, ?_⟩
  · unfold decodeRecord
    rw [List.map_map]
    have h : ∀ dn ∈ dests,
        (Prod.fst ∘ fun dn =>
          match src.find? (fun p => fieldMatches p.1 dn) with
          | some p => (dn, p.2)
          | none => (dn, (0 : Int))) dn = id dn := by
      intro dn _
      simp only [Function.comp_apply, id_eq]
      cases src.find? (fun p => fieldMatches p.1 dn) <;> rfl
    rw [List.map_congr_left h, List.map_id]
  · intro dn hdn hnone
    have hfind : src.find? (fun p => fieldMatches p.1 dn) = none := by
      rw [List.find?_eq_none]
      intro p hp
      simp [hnone p hp]
    unfold decodeRecord
    rw [List.mem_map]
    refine ⟨dn, hdn, ?_⟩
    show (match src.find? (fun p => fieldMatches p.1 dn) with
      | some p => (dn, p.2)
      | none => (dn, (0 : Int))) = (dn, 0)
    rw [hfind]
  · intro dn v hmem
    unfold decodeRecord at hmem
    rw [List.mem_map] at hmem
    obtain ⟨a, ha, hfa⟩ := hmem
    cases hfind : src.find? (fun p => fieldMatches p.1 a) with
    | some p =>
      simp only [hfind] at hfa
      rw [Prod.mk.injEq] at hfa
      obtain ⟨rfl, rfl⟩ := hfa
      have hps : p ∈ src := List.mem_of_find?_eq_some hfind
      have hpm : fieldMatches p.1 a = true := by
        have h2 := List.find?_some hfind
        simpa using h2
      exact ⟨ha, Or.inl ⟨p.1, hps, hpm⟩⟩
    | none =>
      simp only [hfind] at hfa
      rw [Prod.mk.injEq] at hfa
      obtain ⟨rfl, rfl⟩ := hfa
      rw [List.find?_eq_none] at hfind
      exact ⟨ha, Or.inr ⟨rfl, fun p hp => by simpa using hfind p hp⟩⟩

/-- C8 witness: decoding the source record `{X: 5, extra: 7}` into a
destination with fields `x` and `y` — `x` receives 5 through the
case-insensitive match, `y` (unmatched) is left at zero, and `extra` is
ignored. -/
theorem decodeRecord_spec_witness :
    ((['y'], (0 : Int)) ∈ decodeRecord [(['X'], 5), (['e'], 7)] [['x'], ['y']]) ∧
      (['x'] ∈ ([['x'], ['y']] : List (List Char)) ∧
        ((∃ sn, (sn, (5 : Int)) ∈ [(['X'], 5), (['e'], 7)] ∧
            fieldMatches sn ['x'] = true) ∨
          ((5 : Int) = 0 ∧
            ∀ p ∈ [(['X'], (5 : Int)), (['e'], 7)], fieldMatches p.1 ['x'] = false))) :=
  ⟨(decodeRecord_spec _ _).2.1 ['y'] (by decide) (by decide),
    (decodeRecord_spec _ _).2.2 ['x'] 5 (by decide)⟩
